import Mathlib

/-!
Shallow embedding of `task/filter/filter.go` from the bkunifylogbeat
repository, together with theorems settling the specification claims.

The embedding mirrors the Go source:
  * `Condition`, `FilterConfig`, `TaskConfig` mirror the parts of
    `config.TaskConfig` the filter reads (`HasFilter`, `Filters`,
    `Conditions`, `Index`, `Op`, `Key`, `Delimiter`, ids);
  * `goFindIdx` / `goContains` / `goSplitParts` mirror `strings.Contains`
    and `strings.SplitN` (character-level, first occurrence of the
    separator, bounded number of parts, last part keeps the remainder);
  * `condPasses` / `evalConds` / `handleGroups` / `Filters.Handle` mirror the
    body of `(*Filters).Handle`;
  * `Filters.MergeFilterConfig` mirrors `(*Filters).MergeFilterConfig`;
  * `runEvent` mirrors the per-event part of `(*Filters).Run`
    (the `event.Fields["data"]` type assertion, the broadcast branch,
    the single bounded split, the per-consumer evaluate/forward/drop
    loop, each send racing shutdown);
  * `FRegistry.RemoveFilter` mirrors `RemoveFilter`;
  * `cstep` / `crun` give an interleaving semantics for two concurrent
    `GetFilters` calls at the atomicity the `sync.RWMutex` grants: the
    read-locked map lookup is one atomic action, everything after it
    (merge on hit, or create + write-locked registration on miss) another.

The operation catalog (`getOperation`) is an external collaborator of the
package and is therefore a parameter `ops`; `demoOps` is a concrete sample
catalog used for witnesses.
-/

namespace BkFilter

/-- One filter condition, mirroring the fields of a config condition the
code reads: `Index` (Go `int`), `Op`, `Key`. -/
structure Condition where
  index : Int
  op : String
  key : String
deriving DecidableEq, Repr

/-- One rule group (config `Filters` entry): an ordered list of AND-ed
conditions. -/
structure FilterConfig where
  conditions : List Condition
deriving DecidableEq, Repr

/-- The slice of `config.TaskConfig` the filter package reads. -/
structure TaskConfig where
  filterID : String
  processorID : String
  delimiter : String
  hasFilter : Bool
  filters : List FilterConfig
deriving DecidableEq, Repr

/-- The catalog of comparison operators (`getOperation`), an external
collaborator: operator name to binary predicate, `none` for unknown. -/
abbrev OpCatalog := String → Option (String → String → Bool)

/-- Index of the first occurrence of `pat` in `s` (character level),
as Go's `strings.Index`. -/
def goFindIdx (pat : List Char) : List Char → Option Nat
  | [] => if pat.isPrefixOf [] then some 0 else none
  | c :: t =>
    if pat.isPrefixOf (c :: t) then some 0
    else (goFindIdx pat t).map (· + 1)

/-- Go's `strings.Contains text key` at character level. -/
def goContains (s pat : List Char) : Bool :=
  (goFindIdx pat s).isSome

/-- Go's `strings.Contains` lifted to `String`. -/
def strContains (s pat : String) : Bool :=
  goContains s.data pat.data

/-- Go's `strings.SplitN s sep n` for `n ≥ 0` (character level): at most
`n` parts, each part before the first remaining occurrence of `sep`, the
final part keeping the unsplit remainder; `n = 0` gives no parts. -/
def goSplitParts (sep : List Char) : Nat → List Char → List (List Char)
  | 0, _ => []
  | 1, s => [s]
  | n + 2, s =>
    match goFindIdx sep s with
    | none => [s]
    | some m => s.take m :: goSplitParts sep (n + 1) (s.drop (m + sep.length))

/-- `strings.SplitN` lifted to `String`. -/
def goSplitN (s sep : String) (n : Nat) : List String :=
  (goSplitParts sep.data n s.data).map List.asString

/-- Joining the parts back with the separator (used to state that the
final part of a bounded split retains the unsplit remainder). -/
def joinSep (sep : List Char) : List (List Char) → List Char
  | [] => []
  | [x] => x
  | x :: y :: t => x ++ sep ++ joinSep sep (y :: t)

/-- One iteration of the condition loop in `Handle`: does `condition`
pass?  `Index ≤ 0` checks raw-line containment of `Key`; otherwise the
operator is looked up, an unknown operator passes, a known operator fails
on a short line and otherwise applies the predicate to
`(words[Index-1], Key)`. -/
def condPasses (ops : OpCatalog) (words : List String) (text : String)
    (c : Condition) : Bool :=
  if c.index ≤ 0 then
    strContains text c.key
  else
    match ops c.op with
    | none => true
    | some p =>
      if (words.length : Int) < c.index then false
      else p (words.getD (c.index - 1).toNat "") c.key

/-- The inner loop of `Handle` over one group's conditions: all conditions
must pass, stopping at the first failure. -/
def evalConds (ops : OpCatalog) (words : List String) (text : String) :
    List Condition → Bool
  | [] => true
  | c :: rest =>
    if condPasses ops words text c then evalConds ops words text rest
    else false

/-- The outer loop of `Handle` over rule groups: the first group whose
conditions all hold returns the event, otherwise `nil` (`none`). -/
def handleGroups (ops : OpCatalog) (words : List String) (text : String)
    (ev : α) : List FilterConfig → Option α
  | [] => none
  | g :: rest =>
    if evalConds ops words text g.conditions then some ev
    else handleGroups ops words text ev rest

/-- The Go `Filters` struct fields the claims touch: `Delimiter`,
`filterMaxIndex` and the merged `taskConfigMaps` (as an association list
keyed by `ProcessorID`). -/
structure Filters where
  delimiter : String
  filterMaxIndex : Int
  taskConfigMaps : List (String × TaskConfig)
deriving DecidableEq, Repr

/-- `(*Filters).Handle`: unconditional accept when `HasFilter` is false,
otherwise the group scan. -/
def Filters.Handle (ops : OpCatalog) (words : List String) (text : String)
    (taskConfig : TaskConfig) (event : α) : Option α :=
  if taskConfig.hasFilter then
    handleGroups ops words text event taskConfig.filters
  else some event

/-- `(*Filters).MergeFilterConfig`: when the config has `HasFilter`, bump
`filterMaxIndex` to each nonempty group's last condition index when that is
larger; always store the config under its `ProcessorID`. -/
def Filters.MergeFilterConfig (f : Filters) (taskCfg : TaskConfig) : Filters :=
  let maxIdx :=
    if taskCfg.hasFilter then
      taskCfg.filters.foldl
        (fun acc filConfig =>
          match filConfig.conditions.getLast? with
          | none => acc
          | some c => if acc < c.index then c.index else acc)
        f.filterMaxIndex
    else f.filterMaxIndex
  { f with
      filterMaxIndex := maxIdx
      taskConfigMaps :=
        (taskCfg.processorID, taskCfg) ::
          f.taskConfigMaps.filter (fun p => p.1 != taskCfg.processorID) }

/-- A sample operation catalog for concrete evaluations: `eq` is string
equality, `include` is substring containment (as in the real catalog). -/
def demoOps : OpCatalog
  | "eq" => some (fun a b => a == b)
  | "include" => some (fun a b => strContains a b)
  | _ => none

/-- Sends of one event to a list of endpoints, each send racing the
shutdown signal: `quota = none` means shutdown is never observed during
this event, `quota = some k` means it becomes observable before the
`k+1`-st send, so only the first `k` sends complete. -/
def sendQuota (outs : List String) : Option Nat → List String
  | none => outs
  | some k => outs.take k

/-- The per-consumer loop of `Run` after the split: for each merged task
config (in iteration order), evaluate `Handle`; a `nil` result increments
the dropped counter, an accepted event is sent to that consumer's endpoint
(when one is registered), the send racing shutdown.  Returns the ids that
received the event, the handled-counter delta and the dropped-counter
delta. -/
def filterFan (ops : OpCatalog) (words : List String) (text : String)
    (outs : List String) :
    List (String × TaskConfig) → Option Nat → List String × Nat × Nat
  | [], _ => ([], 0, 0)
  | (pid, cfg) :: rest, quota =>
    match Filters.Handle ops words text cfg () with
    | none =>
      let r := filterFan ops words text outs rest quota
      (r.1, r.2.1, r.2.2 + 1)
    | some _ =>
      if pid ∈ outs then
        match quota with
        | none =>
          let r := filterFan ops words text outs rest none
          (pid :: r.1, r.2.1 + 1, r.2.2)
        | some 0 => ([], 0, 0)
        | some (k + 1) =>
          let r := filterFan ops words text outs rest (some k)
          (pid :: r.1, r.2.1 + 1, r.2.2)
      else filterFan ops words text outs rest quota

/-- Processing of one inbound event by `Run`: `dataField` is
`event.Fields["data"]` when the type assertion to `string` succeeds,
`none` otherwise; `outs` are the registered endpoint ids.  A missing
field or an empty delimiter broadcasts to every endpoint; otherwise the
raw line is split once (`SplitN`, at most `filterMaxIndex+1` parts) and
every merged task config is evaluated. -/
def runEvent (ops : OpCatalog) (f : Filters) (outs : List String)
    (quota : Option Nat) (dataField : Option String) :
    List String × Nat × Nat :=
  match dataField with
  | none => (sendQuota outs quota, (sendQuota outs quota).length, 0)
  | some text =>
    if f.delimiter = "" then
      (sendQuota outs quota, (sendQuota outs quota).length, 0)
    else
      let words := goSplitN text f.delimiter (f.filterMaxIndex + 1).toNat
      filterFan ops words text outs f.taskConfigMaps quota

/-- The global registry state `RemoveFilter` mutates: `filterMaps`
(filter id to instance identity) and the `num_filter_total` gauge. -/
structure FRegistry where
  maps : List (String × Nat)
  numOfFilterTotal : Int
deriving DecidableEq, Repr

/-- `RemoveFilter`: delete the map entry under `id` (whatever instance
occupies it) and decrement the gauge. -/
def FRegistry.RemoveFilter (st : FRegistry) (id : String) : FRegistry :=
  { maps := st.maps.filter (fun p => p.1 != id),
    numOfFilterTotal := st.numOfFilterTotal - 1 }

/-- Folding `MergeFilterConfig` over a list of configs. -/
def mergeAll (f : Filters) (cfgs : List TaskConfig) : Filters :=
  cfgs.foldl Filters.MergeFilterConfig f

/-- The last-condition indices of a config's nonempty rule groups, empty
when the config has no filter. -/
def cfgGroupIdxs (c : TaskConfig) : List Int :=
  if c.hasFilter then
    c.filters.filterMap (fun g => (g.conditions.getLast?).map Condition.index)
  else []

/-- Modelled from the spec: the value the spec asserts for
`maxColumnIndex` after merging `cfgs` — "the maximum over all merged
configs' rule groups of the index of each group's last condition". -/
def specMergedMax (cfgs : List TaskConfig) : Option Int :=
  ((cfgs.map cfgGroupIdxs).flatten).max?

/-- What one `GetFilters` caller contributes to an instance: its merged
rule set (keyed by processor id) and its endpoint. -/
structure InstData where
  rulesets : List String
  outs : List String
deriving DecidableEq, Repr

/-- Global state shared by concurrent `GetFilters` callers: the
`filterMaps` registry, the `num_filter_total` gauge, all live (started)
instances with their merged data, and a source of fresh instance
identities. -/
structure CState where
  registry : List (String × Nat)
  counter : Int
  instances : List (Nat × InstData)
  nextId : Nat
deriving DecidableEq, Repr

/-- Thread-local state of one `GetFilters` call: its config's filter id
and processor id, and the result of its read-locked lookup once taken
(`none` = not yet looked up). -/
structure ThreadState where
  fid : String
  pid : String
  looked : Option (Option Nat)
deriving DecidableEq, Repr

/-- Merging a caller's rule set and endpoint into an existing instance
(the hit path: `MergeFilterConfig` + `AddOutput`). -/
def mergeInto (insts : List (Nat × InstData)) (i : Nat) (pid : String) :
    List (Nat × InstData) :=
  insts.map fun p =>
    if p.1 = i then (p.1, ⟨p.2.rulesets ++ [pid], p.2.outs ++ [pid]⟩) else p

/-- The second half of a `GetFilters` call, after its lookup: on a hit,
merge into the found instance; on a miss, `NewFilters` creates a fresh
instance holding only this caller's rule set and endpoint, starts its
loop, and registers it under the filter id (a plain map store, replacing
any entry already there) while incrementing the gauge. -/
def doAct (g : CState) (th : ThreadState) : CState :=
  match th.looked with
  | none => g
  | some (some i) => { g with instances := mergeInto g.instances i th.pid }
  | some none =>
    { registry := (th.fid, g.nextId) :: g.registry.filter (fun p => p.1 != th.fid),
      counter := g.counter + 1,
      instances := (g.nextId, ⟨[th.pid], [th.pid]⟩) :: g.instances,
      nextId := g.nextId + 1 }

/-- Atomic actions of two concurrent `GetFilters` calls, at the
granularity the `sync.RWMutex` enforces: each thread's read-locked lookup
is one action, its remaining work another. -/
inductive CAct where
  | look0
  | look1
  | act0
  | act1
deriving DecidableEq, Repr

/-- One scheduler step of the two-thread interleaving semantics. -/
def cstep (s : CState × ThreadState × ThreadState) (a : CAct) :
    CState × ThreadState × ThreadState :=
  match s, a with
  | (g, t0, t1), .look0 => (g, { t0 with looked := some (g.registry.lookup t0.fid) }, t1)
  | (g, t0, t1), .look1 => (g, t0, { t1 with looked := some (g.registry.lookup t1.fid) })
  | (g, t0, t1), .act0 => (doAct g t0, t0, t1)
  | (g, t0, t1), .act1 => (doAct g t1, t0, t1)

/-- Running a schedule of atomic actions from a start state. -/
def crun (s : CState × ThreadState × ThreadState) (sched : List CAct) :
    CState × ThreadState × ThreadState :=
  sched.foldl cstep s

/-- Two callers with the same filter id `f1` and distinct processor ids,
over an empty registry. -/
def raceInit : CState × ThreadState × ThreadState :=
  (⟨[], 0, [], 0⟩, ⟨"f1", "p1", none⟩, ⟨"f1", "p2", none⟩)

/-- The interleaving in which both read-locked lookups happen before
either registration: both miss, both create. -/
def raceFinal : CState × ThreadState × ThreadState :=
  crun raceInit [.look0, .look1, .act0, .act1]

/-- The group scan returns the event exactly when some group's conditions
all hold. -/
theorem handleGroups_eq_some_iff {α} (ops : OpCatalog) (words : List String)
    (text : String) (ev : α) (gs : List FilterConfig) :
    handleGroups ops words text ev gs = some ev ↔
      ∃ g ∈ gs, evalConds ops words text g.conditions = true := by
  induction gs with
  | nil => simp [handleGroups]
  | cons g rest ih =>
    by_cases h : evalConds ops words text g.conditions = true
    · simp [handleGroups, h]
    · simp only [handleGroups, if_neg h, ih, List.mem_cons]
      constructor
      · rintro ⟨g', hg', he⟩; exact ⟨g', Or.inr hg', he⟩
      · rintro ⟨g', hg' | hg', he⟩
        · exact absurd (hg' ▸ he) h
        · exact ⟨g', hg', he⟩

/-- The group scan returns `none` exactly when no group is satisfied. -/
theorem handleGroups_eq_none_iff {α} (ops : OpCatalog) (words : List String)
    (text : String) (ev : α) (gs : List FilterConfig) :
    handleGroups ops words text ev gs = none ↔
      ∀ g ∈ gs, evalConds ops words text g.conditions = false := by
  induction gs with
  | nil => simp [handleGroups]
  | cons g rest ih =>
    by_cases h : evalConds ops words text g.conditions = true
    · simp [handleGroups, h]
    · have hf : evalConds ops words text g.conditions = false :=
        Bool.eq_false_iff.mpr h
      simp [handleGroups, if_neg h, ih, hf]

/-- A group whose prefix passes and then hits a failing condition rejects,
whatever conditions follow the failing one. -/
theorem evalConds_fail_at (ops : OpCatalog) (words : List String)
    (text : String) (cpre : List Condition) (c : Condition)
    (cpost : List Condition)
    (hpre : ∀ c' ∈ cpre, condPasses ops words text c' = true)
    (hc : condPasses ops words text c = false) :
    evalConds ops words text (cpre ++ c :: cpost) = false := by
  induction cpre with
  | nil => simp [evalConds, hc]
  | cons a t ih =>
    have ha : condPasses ops words text a = true := hpre a (by simp)
    simp only [List.cons_append, evalConds, if_pos ha]
    exact ih fun c' hc' => hpre c' (by simp [hc'])

/-- The group scan accepts at the first satisfied group, whatever groups
follow it. -/
theorem handleGroups_first_accept {α} (ops : OpCatalog) (words : List String)
    (text : String) (ev : α) (gpre : List FilterConfig) (g : FilterConfig)
    (gpost : List FilterConfig)
    (hpre : ∀ g' ∈ gpre, evalConds ops words text g'.conditions = false)
    (hg : evalConds ops words text g.conditions = true) :
    handleGroups ops words text ev (gpre ++ g :: gpost) = some ev := by
  induction gpre with
  | nil => simp [handleGroups, hg]
  | cons a t ih =>
    have ha : evalConds ops words text a.conditions = false := hpre a (by simp)
    simp only [List.cons_append, handleGroups, ha]
    exact ih fun g' hg' => hpre g' (by simp [hg'])

/-- C1: for a rule set with `hasFilter` true, `Handle` accepts exactly when
some rule group's conditions all hold and rejects (returns `nil`) when no
group is fully satisfied; the first satisfied group returns whatever groups
follow it (so group 1 rejecting and group 2 accepting gives accept), and a
group rejects at its first failing condition whatever conditions follow
it. -/
theorem handle_scans_groups_in_order {α} (ops : OpCatalog) (words : List String)
    (text : String) (cfg : TaskConfig) (ev : α) (hf : cfg.hasFilter = true) :
    (Filters.Handle ops words text cfg ev = some ev ↔
      ∃ g ∈ cfg.filters, evalConds ops words text g.conditions = true) ∧
    (Filters.Handle ops words text cfg ev = none ↔
      ∀ g ∈ cfg.filters, evalConds ops words text g.conditions = false) ∧
    (∀ gpre g gpost,
      (∀ g' ∈ gpre, evalConds ops words text g'.conditions = false) →
      evalConds ops words text g.conditions = true →
      Filters.Handle ops words text { cfg with filters := gpre ++ g :: gpost } ev
        = some ev) ∧
    (∀ cpre c cpost,
      (∀ c' ∈ cpre, condPasses ops words text c' = true) →
      condPasses ops words text c = false →
      evalConds ops words text (cpre ++ c :: cpost) = false) := by
  refine ⟨?_, ?_, ?_, ?_⟩
  · simpa [Filters.Handle, hf] using
      handleGroups_eq_some_iff ops words text ev cfg.filters
  · simpa [Filters.Handle, hf] using
      handleGroups_eq_none_iff ops words text ev cfg.filters
  · intro gpre g gpost hpre hg
    simpa [Filters.Handle, hf] using
      handleGroups_first_accept ops words text ev gpre g gpost hpre hg
  · exact fun cpre c cpost hpre hc =>
      evalConds_fail_at ops words text cpre c cpost hpre hc

/-- Concrete rule set used as the C1 witness input: one group whose single
condition checks raw-line containment of `"a"`. -/
def cfgW : TaskConfig := ⟨"f", "p", ",", true, [⟨[⟨0, "", "a"⟩]⟩]⟩

/-- Witness for C1 at a concrete rule set, line and event. -/
theorem handle_scans_groups_in_order_witness :
    cfgW.hasFilter = true ∧
    (Filters.Handle demoOps ["x"] "abc" cfgW "ev" = some "ev" ↔
      ∃ g ∈ cfgW.filters, evalConds demoOps ["x"] "abc" g.conditions = true) :=
  ⟨rfl, (handle_scans_groups_in_order demoOps ["x"] "abc" cfgW "ev" rfl).1⟩

/-- C2: for a condition with positive column index, an operator missing
from the catalog makes the condition pass (and group evaluation continue
unchanged); a known operator fails the condition when there are fewer
split columns than the index, and otherwise the condition is the operator
predicate applied to `(columns[index-1], key)`. -/
theorem condPasses_positive_index (ops : OpCatalog) (words : List String)
    (text : String) (c : Condition) (h : 1 ≤ c.index) :
    (ops c.op = none → condPasses ops words text c = true ∧
      ∀ rest, evalConds ops words text (c :: rest) = evalConds ops words text rest) ∧
    (∀ p, ops c.op = some p → (words.length : Int) < c.index →
      condPasses ops words text c = false) ∧
    (∀ p, ops c.op = some p → c.index ≤ (words.length : Int) →
      condPasses ops words text c = p (words.getD (c.index - 1).toNat "") c.key) := by
  have hnle : ¬ c.index ≤ 0 := by omega
  refine ⟨?_, ?_, ?_⟩
  · intro hop
    have h1 : condPasses ops words text c = true := by
      simp [condPasses, hnle, hop]
    exact ⟨h1, fun rest => by simp [evalConds, h1]⟩
  · intro p hop hlt
    simp [condPasses, hnle, hop, hlt]
  · intro p hop hle
    have hnlt : ¬ ((words.length : Int) < c.index) := not_lt.mpr hle
    simp [condPasses, hnle, hop, hnlt]

/-- Concrete condition used as the C2 witness input. -/
def condW : Condition := ⟨2, "eq", "b"⟩

/-- Witness for C2 at a concrete condition, catalog and column list. -/
theorem condPasses_positive_index_witness :
    (1 : Int) ≤ condW.index ∧
    (∀ p, demoOps condW.op = some p →
      condW.index ≤ ((["a", "b"] : List String).length : Int) →
      condPasses demoOps ["a", "b"] "a,b" condW
        = p ((["a", "b"] : List String).getD (condW.index - 1).toNat "") condW.key) :=
  ⟨by decide, (condPasses_positive_index demoOps ["a", "b"] "a,b" condW (by decide)).2.2⟩

/-- C6: a rule set with `hasFilter` false accepts every event, whatever
the line, columns or groups. -/
theorem handle_hasFilter_false {α} (ops : OpCatalog) (words : List String)
    (text : String) (cfg : TaskConfig) (ev : α) (h : cfg.hasFilter = false) :
    Filters.Handle ops words text cfg ev = some ev := by
  simp [Filters.Handle, h]

/-- Concrete rule set with `hasFilter` false but a present (ignored)
rule group, used as the C6 witness input. -/
def cfgNF : TaskConfig := ⟨"f", "p", ",", false, [⟨[⟨1, "eq", "zz"⟩]⟩]⟩

/-- Witness for C6 at a concrete rule set whose (ignored) group would
reject the line. -/
theorem handle_hasFilter_false_witness :
    cfgNF.hasFilter = false ∧
    Filters.Handle demoOps ["q"] "q" cfgNF "ev" = some "ev" :=
  ⟨rfl, handle_hasFilter_false demoOps ["q"] "q" cfgNF "ev" rfl⟩

/-- C10: a rule set with `hasFilter` true containing a group with an empty
condition list accepts every event: the empty group's conditions hold
vacuously. -/
theorem handle_empty_group_accepts {α} (ops : OpCatalog) (words : List String)
    (text : String) (cfg : TaskConfig) (ev : α) (hf : cfg.hasFilter = true)
    (hg : ∃ g ∈ cfg.filters, g.conditions = []) :
    Filters.Handle ops words text cfg ev = some ev := by
  obtain ⟨g, hmem, hnil⟩ := hg
  have hev : evalConds ops words text g.conditions = true := by
    simp [hnil, evalConds]
  simp only [Filters.Handle, hf, if_true]
  exact (handleGroups_eq_some_iff ops words text ev cfg.filters).mpr ⟨g, hmem, hev⟩

/-- Concrete rule set whose first group rejects everything and whose second
group is empty, used as the C10 witness input. -/
def cfgEG : TaskConfig := ⟨"f", "p", ",", true, [⟨[⟨0, "", "zz"⟩]⟩, ⟨[]⟩]⟩

/-- Witness for C10 at a concrete rule set whose first group rejects the
line and whose second group is empty. -/
theorem handle_empty_group_accepts_witness :
    cfgEG.hasFilter = true ∧ (∃ g ∈ cfgEG.filters, g.conditions = []) ∧
    Filters.Handle demoOps ["q"] "q" cfgEG "ev" = some "ev" :=
  ⟨rfl, ⟨⟨[]⟩, by decide, rfl⟩,
    handle_empty_group_accepts demoOps ["q"] "q" cfgEG "ev" rfl ⟨⟨[]⟩, by decide, rfl⟩⟩

/-- The first-occurrence search succeeds exactly on infixes (Go's
`strings.Index` is nonnegative exactly when the pattern occurs). -/
theorem goFindIdx_isSome_iff (pat s : List Char) :
    (goFindIdx pat s).isSome = true ↔ pat <:+: s := by
  induction s with
  | nil =>
    by_cases hp : pat.isPrefixOf ([] : List Char)
    · simp [goFindIdx, hp, List.IsPrefix.isInfix (List.isPrefixOf_iff_prefix.mp hp)]
    · have hnp : pat ≠ [] := by
        intro he
        exact hp (List.isPrefixOf_iff_prefix.mpr (he ▸ List.prefix_refl _))
      simp [goFindIdx, hp, List.infix_nil, hnp]
  | cons c t ih =>
    by_cases hp : pat.isPrefixOf (c :: t)
    · simp [goFindIdx, hp, List.IsPrefix.isInfix (List.isPrefixOf_iff_prefix.mp hp)]
    · have hnp : ¬ pat <+: (c :: t) := fun hpre =>
        hp (List.isPrefixOf_iff_prefix.mpr hpre)
      cases hfind : goFindIdx pat t with
      | none =>
        have ht := ih
        rw [hfind] at ht
        simp only [Option.isSome_none, Bool.false_eq_true, false_iff] at ht
        simp [goFindIdx, hp, hfind, List.infix_cons_iff, hnp, ht]
      | some m =>
        have ht := ih
        rw [hfind] at ht
        simp only [Option.isSome_some, true_iff] at ht
        simp [goFindIdx, hp, hfind, List.infix_cons_iff, ht]

/-- `strings.Contains` holds exactly when the pattern is an infix. -/
theorem strContains_iff_infix (s pat : String) :
    strContains s pat = true ↔ pat.data <:+: s.data :=
  goFindIdx_isSome_iff pat.data s.data

/-- C7: a condition with nonpositive column index holds exactly when the
raw line contains the key as a (case-sensitive) substring; the catalog,
the operator and the split columns are irrelevant. -/
theorem condPasses_nonpositive_index (text : String) (c : Condition)
    (h : c.index ≤ 0) (ops ops' : OpCatalog) (words words' : List String) :
    condPasses ops words text c = strContains text c.key ∧
    condPasses ops words text c = condPasses ops' words' text c ∧
    (condPasses ops words text c = true ↔ c.key.data <:+: text.data) := by
  have h1 : ∀ (o : OpCatalog) (w : List String),
      condPasses o w text c = strContains text c.key := fun o w => by
    simp [condPasses, h]
  exact ⟨h1 ops words, (h1 ops words).trans (h1 ops' words').symm,
    (h1 ops words) ▸ strContains_iff_infix text c.key⟩

/-- Concrete whole-line condition used as the C7 witness input. -/
def condR : Condition := ⟨0, "eq", "ERROR"⟩

/-- Witness for C7 at a concrete condition and line: the operator entry
for `eq` exists yet is irrelevant, and containment decides the check. -/
theorem condPasses_nonpositive_index_witness :
    condR.index ≤ 0 ∧
    (condPasses demoOps ["x"] "an ERROR line" condR
        = strContains "an ERROR line" condR.key ∧
      condPasses demoOps ["x"] "an ERROR line" condR
        = condPasses (fun _ => none) [] "an ERROR line" condR ∧
      (condPasses demoOps ["x"] "an ERROR line" condR = true ↔
        condR.key.data <:+: ("an ERROR line" : String).data)) :=
  ⟨by decide,
    condPasses_nonpositive_index "an ERROR line" condR (by decide)
      demoOps (fun _ => none) ["x"] []⟩

/-- The merge loop's running maximum over a config's groups equals a fold
of `max` over the groups' last-condition indices. -/
theorem foldl_lastIdx_eq (gs : List FilterConfig) (a : Int) :
    gs.foldl
      (fun acc filConfig =>
        match filConfig.conditions.getLast? with
        | none => acc
        | some c => if acc < c.index then c.index else acc) a
    = ((gs.filterMap fun g => (g.conditions.getLast?).map Condition.index).foldl
        max a) := by
  induction gs generalizing a with
  | nil => rfl
  | cons g t ih =>
    cases hl : g.conditions.getLast? with
    | none => simp [List.foldl_cons, List.filterMap_cons, hl, ih]
    | some c =>
      have hmax : (if a < c.index then c.index else a) = max a c.index := by
        rcases lt_or_le a c.index with hlt | hle
        · simp [hlt, max_eq_right hlt.le]
        · simp [not_lt.2 hle, max_eq_left hle]
      simp [List.foldl_cons, List.filterMap_cons, hl, ih, hmax]

/-- `MergeFilterConfig` folds `max` of the config's last-condition indices
into the running `filterMaxIndex`. -/
theorem mergeFilterConfig_maxIndex (f : Filters) (c : TaskConfig) :
    (f.MergeFilterConfig c).filterMaxIndex
      = (cfgGroupIdxs c).foldl max f.filterMaxIndex := by
  cases hc : c.hasFilter <;>
    simp [Filters.MergeFilterConfig, cfgGroupIdxs, hc, foldl_lastIdx_eq]

/-- Merging a list of configs folds `max` of all their groups'
last-condition indices into the starting `filterMaxIndex`. -/
theorem mergeAll_maxIndex (f : Filters) (cfgs : List TaskConfig) :
    (mergeAll f cfgs).filterMaxIndex
      = ((cfgs.map cfgGroupIdxs).flatten).foldl max f.filterMaxIndex := by
  induction cfgs generalizing f with
  | nil => rfl
  | cons c t ih =>
    have h1 : mergeAll f (c :: t) = mergeAll (f.MergeFilterConfig c) t := rfl
    rw [h1, ih, List.map_cons, List.flatten_cons, List.foldl_append,
      mergeFilterConfig_maxIndex]

/-- A fold of `max` never goes below its starting value. -/
theorem le_foldl_max (l : List Int) (a : Int) : a ≤ l.foldl max a := by
  induction l generalizing a with
  | nil => exact le_refl a
  | cons x t ih => exact le_trans (le_max_left a x) (ih (max a x))

/-- Fresh filter instance as built by `NewFilters` before its first merge:
`filterMaxIndex` starts at Go's zero value. -/
def filters0 : Filters := ⟨",", 0, []⟩

/-- Config whose only group's last condition has a negative index (a
legal whole-line condition). -/
def cfgNeg : TaskConfig := ⟨"f", "p", ",", true, [⟨[⟨-1, "eq", "k"⟩]⟩]⟩

/-- C3 counterexample: merging into a fresh instance a single `hasFilter`
config whose only group's last condition has index `-1` leaves
`filterMaxIndex` at `0`, not at the merged configs' maximum `-1`: the
merge only ever raises the field, so the claimed equality fails. -/
theorem mergeMax_spec_mismatch :
    (mergeAll filters0 [cfgNeg]).filterMaxIndex = 0 ∧
    specMergedMax [cfgNeg] = some (-1) ∧
    some (mergeAll filters0 [cfgNeg]).filterMaxIndex ≠ specMergedMax [cfgNeg] := by
  decide

/-- C3 amended: merging configs folds `max` of every `hasFilter` config's
groups' last-condition indices into the starting `filterMaxIndex` (so the
result is the maximum of the starting value and those indices), the result
is the same for any merge order, a single merge never decreases the field,
and a config without `hasFilter` leaves it unchanged. -/
theorem mergeMax_fold_max (f : Filters) (cfgs cfgs' : List TaskConfig)
    (c : TaskConfig) (hperm : cfgs.Perm cfgs') :
    ((mergeAll f cfgs).filterMaxIndex
      = ((cfgs.map cfgGroupIdxs).flatten).foldl max f.filterMaxIndex) ∧
    ((mergeAll f cfgs).filterMaxIndex = (mergeAll f cfgs').filterMaxIndex) ∧
    (f.filterMaxIndex ≤ (f.MergeFilterConfig c).filterMaxIndex) ∧
    (c.hasFilter = false →
      (f.MergeFilterConfig c).filterMaxIndex = f.filterMaxIndex) := by
  refine ⟨mergeAll_maxIndex f cfgs, ?_, ?_, ?_⟩
  · rw [mergeAll_maxIndex f cfgs, mergeAll_maxIndex f cfgs']
    exact
      @List.Perm.foldl_eq _ _ max _ _
        ⟨fun b a1 a2 => by rw [max_assoc, max_comm a1 a2, ← max_assoc]⟩
        ((hperm.map cfgGroupIdxs).flatten) f.filterMaxIndex
  · rw [mergeFilterConfig_maxIndex]
    exact le_foldl_max _ _
  · intro hc
    simp [Filters.MergeFilterConfig, hc]

/-- Config with rule groups, last index 2, for the C3 witness. -/
def cfgM1 : TaskConfig := ⟨"f", "p1", ",", true, [⟨[⟨2, "eq", "a"⟩]⟩]⟩

/-- Config with rule groups, last index 5, for the C3 witness. -/
def cfgM2 : TaskConfig := ⟨"f", "p2", ",", true, [⟨[⟨5, "eq", "b"⟩]⟩]⟩

/-- Config without `hasFilter`, for the C3 witness. -/
def cfgM0 : TaskConfig := ⟨"f", "p0", ",", false, []⟩

/-- Witness for the amended C3 at two concrete configs and both merge
orders. -/
theorem mergeMax_fold_max_witness :
    ([cfgM1, cfgM2].Perm [cfgM2, cfgM1]) ∧
    (((mergeAll filters0 [cfgM1, cfgM2]).filterMaxIndex
      = (([cfgM1, cfgM2].map cfgGroupIdxs).flatten).foldl max filters0.filterMaxIndex) ∧
    ((mergeAll filters0 [cfgM1, cfgM2]).filterMaxIndex
      = (mergeAll filters0 [cfgM2, cfgM1]).filterMaxIndex) ∧
    (filters0.filterMaxIndex ≤ (filters0.MergeFilterConfig cfgM0).filterMaxIndex) ∧
    (cfgM0.hasFilter = false →
      (filters0.MergeFilterConfig cfgM0).filterMaxIndex = filters0.filterMaxIndex)) :=
  ⟨by decide, mergeMax_fold_max filters0 [cfgM1, cfgM2] [cfgM2, cfgM1] cfgM0 (by decide)⟩

/-- Rule set rejecting every line that lacks the substring `"X"`, used
against C4. -/
def cfgC4 : TaskConfig := ⟨"f", "p", ",", true, [⟨[⟨0, "", "X"⟩]⟩]⟩

/-- Filter instance with a nonempty delimiter and one merged consumer that
rejects lines without `"X"`. -/
def filC4 : Filters := ⟨",", 0, [("p", cfgC4)]⟩

/-- C4 counterexample: an event whose raw line is the empty string (the
"data" field present and a nonempty delimiter), against a consumer whose
rules reject it, is evaluated and dropped, not broadcast: the
unfiltered-forward branch tests field absence, not line emptiness. -/
theorem runEvent_empty_line_dropped :
    runEvent demoOps filC4 ["p"] none (some "") = ([], 0, 1) ∧
    ([] : List String) ≠ ["p"] := by decide

/-- C4 amended: when the "data" field is absent (or not a string) or the
instance delimiter is empty, the event is sent to every registered
endpoint exactly once each, in order, with no rule evaluation and no drop,
the handled counter incremented once per completed send; a shutdown
observed before the `k+1`-st send lets exactly the first `k` sends
complete. -/
theorem runEvent_broadcast (ops : OpCatalog) (f : Filters) (outs : List String)
    (quota : Option Nat) (d : Option String)
    (h : d = none ∨ f.delimiter = "") :
    runEvent ops f outs quota d
      = (sendQuota outs quota, (sendQuota outs quota).length, 0) ∧
    sendQuota outs none = outs ∧
    (∀ k, sendQuota outs (some k) = outs.take k) := by
  refine ⟨?_, rfl, fun k => rfl⟩
  rcases h with h | h
  · rw [h]; rfl
  · cases d with
    | none => rfl
    | some text => simp [runEvent, h]

/-- Witness for the amended C4: absent "data" field, two endpoints,
shutdown observed after the first send. -/
theorem runEvent_broadcast_witness :
    ((none : Option String) = none ∨ filC4.delimiter = "") ∧
    (runEvent demoOps filC4 ["p", "q"] (some 1) none
      = (sendQuota ["p", "q"] (some 1), (sendQuota ["p", "q"] (some 1)).length, 0) ∧
    sendQuota ["p", "q"] none = ["p", "q"] ∧
    (∀ k, sendQuota ["p", "q"] (some k) = (["p", "q"] : List String).take k)) :=
  ⟨Or.inl rfl,
    runEvent_broadcast demoOps filC4 ["p", "q"] (some 1) none (Or.inl rfl)⟩

/-- Deleting a key from an association list: the key is gone. -/
theorem lookup_filter_self (l : List (String × Nat)) (id : String) :
    (l.filter fun p => p.1 != id).lookup id = none := by
  induction l with
  | nil => rfl
  | cons p t ih =>
    by_cases h : p.1 = id
    · simp [List.filter_cons, h, ih]
    · have h1 : (id == p.1) = false :=
        beq_eq_false_iff_ne.mpr fun he => h he.symm
      simp [List.filter_cons, h, List.lookup, h1, ih]

/-- Deleting a key from an association list: other keys are untouched. -/
theorem lookup_filter_other (l : List (String × Nat)) (id k : String)
    (hk : k ≠ id) :
    (l.filter fun p => p.1 != id).lookup k = l.lookup k := by
  induction l with
  | nil => rfl
  | cons p t ih =>
    by_cases h : p.1 = id
    · have h1 : (k == p.1) = false := by
        rw [h]; exact beq_eq_false_iff_ne.mpr hk
      have h2 : (k == id) = false := beq_eq_false_iff_ne.mpr hk
      simp [List.filter_cons, h, List.lookup, h1, h2, ih]
    · cases hkp : (k == p.1) <;>
        simp [List.filter_cons, h, List.lookup, hkp, ih]

/-- C5 counterexample: with the registry slot for `"f1"` occupied by a
newer instance (identity 2), the dying instance (identity 1)
self-unregisters by id and the newer instance's entry is removed — removal
checks only key presence, not instance identity. -/
theorem removeFilter_removes_newer :
    (⟨[("f1", 2)], 1⟩ : FRegistry).maps.lookup "f1" = some 2 ∧
    (FRegistry.RemoveFilter ⟨[("f1", 2)], 1⟩ "f1").maps.lookup "f1" = none ∧
    (FRegistry.RemoveFilter ⟨[("f1", 2)], 1⟩ "f1").numOfFilterTotal = 0 ∧
    (2 : Nat) ≠ 1 := by decide

/-- C5 amended: `RemoveFilter` deletes whatever entry sits under the id —
no identity check — and decrements the live-instance gauge; entries under
other ids are untouched. -/
theorem removeFilter_unconditional (st : FRegistry) (id k : String)
    (hk : k ≠ id) :
    (st.RemoveFilter id).maps.lookup id = none ∧
    (st.RemoveFilter id).numOfFilterTotal = st.numOfFilterTotal - 1 ∧
    (st.RemoveFilter id).maps.lookup k = st.maps.lookup k :=
  ⟨lookup_filter_self st.maps id, rfl, lookup_filter_other st.maps id k hk⟩

/-- Witness for the amended C5 at a concrete registry with two entries. -/
theorem removeFilter_unconditional_witness :
    ("g" : String) ≠ "f1" ∧
    ((FRegistry.RemoveFilter ⟨[("f1", 2), ("g", 7)], 5⟩ "f1").maps.lookup "f1" = none ∧
    (FRegistry.RemoveFilter ⟨[("f1", 2), ("g", 7)], 5⟩ "f1").numOfFilterTotal = 5 - 1 ∧
    (FRegistry.RemoveFilter ⟨[("f1", 2), ("g", 7)], 5⟩ "f1").maps.lookup "g"
      = (⟨[("f1", 2), ("g", 7)], 5⟩ : FRegistry).maps.lookup "g") :=
  ⟨by decide, removeFilter_unconditional ⟨[("f1", 2), ("g", 7)], 5⟩ "f1" "g" (by decide)⟩

/-- A bounded split produces at most `n` parts. -/
theorem goSplitParts_length_le (sep : List Char) (n : Nat) :
    ∀ s, (goSplitParts sep n s).length ≤ n := by
  induction n using Nat.strong_induction_on with
  | _ n ih =>
    intro s
    match n with
    | 0 => simp [goSplitParts]
    | 1 => simp [goSplitParts]
    | k + 2 =>
      cases h : goFindIdx sep s with
      | none => simp [goSplitParts, h]
      | some m =>
        have hrec := ih (k + 1) (by omega) (s.drop (m + sep.length))
        simp only [goSplitParts, h, List.length_cons]
        omega

/-- A successful first-occurrence search decomposes the string around the
pattern. -/
theorem goFindIdx_decomp (pat : List Char) :
    ∀ (s : List Char) (m : Nat), goFindIdx pat s = some m →
      s = s.take m ++ pat ++ s.drop (m + pat.length) := by
  intro s
  induction s with
  | nil =>
    intro m h
    by_cases hp : pat.isPrefixOf ([] : List Char)
    · have hpat : pat = [] := by
        cases pat with
        | nil => rfl
        | cons a t => simp [List.isPrefixOf] at hp
      rw [goFindIdx, if_pos hp] at h
      have hm0 : m = 0 := (Option.some.inj h).symm
      subst hm0
      simp [hpat]
    · rw [goFindIdx, if_neg hp] at h
      exact absurd h (by simp)
  | cons c t ih =>
    intro m h
    by_cases hp : pat.isPrefixOf (c :: t)
    · rw [goFindIdx, if_pos hp] at h
      have hm0 : m = 0 := (Option.some.inj h).symm
      subst hm0
      obtain ⟨u, hu⟩ := List.isPrefixOf_iff_prefix.mp hp
      rw [List.take_zero, List.nil_append, Nat.zero_add, ← hu, List.drop_left]
    · rw [goFindIdx, if_neg hp, Option.map_eq_some'] at h
      obtain ⟨m', hm', rfl⟩ := h
      have harith : m' + 1 + pat.length = (m' + pat.length) + 1 := by omega
      rw [List.take_succ_cons, harith, List.drop_succ_cons, List.cons_append,
        List.cons_append]
      exact congrArg (List.cons c) (ih m' hm')

/-- A bounded split with at least one allowed part is never empty. -/
theorem goSplitParts_ne_nil (sep : List Char) (n : Nat) (hn : 1 ≤ n)
    (s : List Char) : goSplitParts sep n s ≠ [] := by
  match n with
  | 0 => omega
  | 1 => simp [goSplitParts]
  | k + 2 => cases h : goFindIdx sep s <;> simp [goSplitParts, h]

/-- Joining the parts of a bounded split with the separator reconstructs
the input: the final part retains the unsplit remainder. -/
theorem joinSep_goSplitParts (sep : List Char) (n : Nat) :
    ∀ s, 1 ≤ n → joinSep sep (goSplitParts sep n s) = s := by
  induction n using Nat.strong_induction_on with
  | _ n ih =>
    intro s hn
    match n with
    | 0 => omega
    | 1 => simp [goSplitParts, joinSep]
    | k + 2 =>
      cases h : goFindIdx sep s with
      | none => simp [goSplitParts, h, joinSep]
      | some m =>
        have hsplit : goSplitParts sep (k + 2) s
            = s.take m :: goSplitParts sep (k + 1) (s.drop (m + sep.length)) := by
          rw [goSplitParts, h]
        have hne := goSplitParts_ne_nil sep (k + 1) (by omega)
          (s.drop (m + sep.length))
        cases hrest : goSplitParts sep (k + 1) (s.drop (m + sep.length)) with
        | nil => exact absurd hrest hne
        | cons y t =>
          rw [hsplit, hrest, joinSep, ← hrest,
            ih (k + 1) (by omega) (s.drop (m + sep.length)) (by omega)]
          exact (goFindIdx_decomp sep s m h).symm

/-- Rule set whose single group is `(index 3, include, "c")`. -/
def cfg3 : TaskConfig := ⟨"f", "p", ",", true, [⟨[⟨3, "include", "c"⟩]⟩]⟩

/-- Rule set whose single group is `(index 4, include, "x")` — a known
operator at a column the example line does not have. -/
def cfg4 : TaskConfig := ⟨"f", "p", ",", true, [⟨[⟨4, "include", "x"⟩]⟩]⟩

/-- Instance merged with `cfg3` only (so `filterMaxIndex` is 3). -/
def fil3 : Filters := ⟨",", 3, [("p", cfg3)]⟩

/-- Instance merged with `cfg4` only (so `filterMaxIndex` is 4). -/
def fil4 : Filters := ⟨",", 4, [("p", cfg4)]⟩

/-- C8: the dispatch loop's split is bounded — at most `n` parts, joining
them with the delimiter reconstructs the raw line (so the final part
retains the unsplit remainder) — and on line "a,b,c" with delimiter ","
the columns are a, b, c: a group `(index 3, include, "c")` accepts and a
known-operator group at index 4 rejects as a short line. -/
theorem run_bounded_split (s sep : List Char) (n : Nat) (hsep : sep ≠ [])
    (hn : 1 ≤ n) :
    (goSplitParts sep n s).length ≤ n ∧
    joinSep sep (goSplitParts sep n s) = s ∧
    goSplitN "a,b,c" "," 4 = ["a", "b", "c"] ∧
    runEvent demoOps fil3 ["p"] none (some "a,b,c") = (["p"], 1, 0) ∧
    runEvent demoOps fil4 ["p"] none (some "a,b,c") = ([], 0, 1) :=
  ⟨goSplitParts_length_le sep n s, joinSep_goSplitParts sep n s hn,
    by decide, by decide, by decide⟩

/-- Witness for C8 at a concrete line, separator and bound. -/
theorem run_bounded_split_witness :
    ((":" : String).data ≠ [] ∧ 1 ≤ 2) ∧
    ((goSplitParts (":" : String).data 2 ("x:y:z" : String).data).length ≤ 2 ∧
    joinSep (":" : String).data
      (goSplitParts (":" : String).data 2 ("x:y:z" : String).data)
      = ("x:y:z" : String).data ∧
    goSplitN "a,b,c" "," 4 = ["a", "b", "c"] ∧
    runEvent demoOps fil3 ["p"] none (some "a,b,c") = (["p"], 1, 0) ∧
    runEvent demoOps fil4 ["p"] none (some "a,b,c") = ([], 0, 1)) :=
  ⟨⟨by decide, by decide⟩,
    run_bounded_split ("x:y:z" : String).data (":" : String).data 2
      (by decide) (by decide)⟩

/-- C9 (the registration race): in the interleaving where both callers'
read-locked lookups precede either registration, both miss and both
create; afterwards the registry holds exactly one entry for "f1", but the
registered instance carries only the second caller's rule set and
endpoint, the first caller's instance is live yet unreachable with its
merge and endpoint lost, and the live-instance gauge reads 2. -/
theorem getFilters_race_lost_merge :
    raceFinal.1.registry = [("f1", 1)] ∧
    raceFinal.1.instances.lookup 1 = some ⟨["p2"], ["p2"]⟩ ∧
    raceFinal.1.instances.lookup 0 = some ⟨["p1"], ["p1"]⟩ ∧
    raceFinal.1.instances.length = 2 ∧
    raceFinal.1.counter = 2 ∧
    ("p1" : String) ∉ (["p2"] : List String) := by decide

end BkFilter
